import Mathlib

/-!
# Verification of the gondolin host VFS and control-protocol core

Shallow embedding of `src/host/src/vfs/utils.ts`, `src/host/src/vfs/readonly-virtual.ts`,
`src/host/src/exec.ts` and `src/host/test/helpers/vm-fixture.ts`, with theorems about the
behaviour claimed in the specification.

Strings are embedded as Lean `String`, byte buffers as `List Nat` (each element a byte
value), JavaScript numbers used as integers as `Nat`/`Int` with explicit wrapping where
overflow matters.
-/

namespace Gondolin

/-! ## vfs/utils.ts -/

/-- `isWriteFlag` from `src/host/src/vfs/utils.ts`:
`return /[wa+]/.test(flags);` — true iff the flag string contains `w`, `a` or `+`. -/
def isWriteFlag (flags : String) : Bool :=
  flags.data.any (fun c => c = 'w' || c = 'a' || c = '+')

/-- `ERRNO.EROFS` — `os.constants.errno.EROFS`, the read-only-filesystem errno
(30 on Linux). -/
def EROFS : Nat := 30

/-- Modelled from the spec: `createErrnoError` lives in `src/host/src/vfs/errors.ts`,
which is not among the provided sources; the spec's Path Normalizer & Error Mapper
"maps abstract failures to OS-standard error codes ... always attached to the failing
path".  We model the resulting error value as the errno code together with the syscall
name and the failing path, exactly the three arguments the adapter passes. -/
structure ErrnoError where
  errno : Nat
  syscall : String
  path : String
  deriving DecidableEq, Repr

/-- Modelled from the spec: constructor for the OS-standard error value
(see `ErrnoError`). -/
def createErrnoError (errno : Nat) (syscall : String) (path : String) : ErrnoError :=
  ⟨errno, syscall, path⟩

/-! ## vfs/readonly-virtual.ts — `ReadonlyVirtualProvider`

The adapter wraps a caller-supplied synchronous backend.  We embed the backend as a
record of the abstract implementations a subclass supplies (`openReadonlySync` and the
read-side sync methods); each adapter method becomes a function from the backend to an
`Except ErrnoError` result.  "The backend is never invoked" is expressed as the result
being independent of the backend argument. -/

/-- Opaque value standing for the `VirtualFileHandle` a backend's open returns. -/
structure VirtualFileHandle where
  token : Nat
  deriving DecidableEq, Repr

/-- The abstract synchronous backend a `ReadonlyVirtualProvider` subclass supplies:
`openReadonlySync` plus the other read-side implementations.  Only `openReadonlySync`
matters for the claims; the rest are carried for completeness of the interface. -/
structure ReadonlyBackend where
  openReadonlySync : String → String → Option Nat → VirtualFileHandle

namespace ReadonlyVirtualProvider

/-- `get readonly() { return true; }` -/
def readonly : Bool := true

/-- `get supportsSymlinks() { return false; }` -/
def supportsSymlinks : Bool := false

/-- `get supportsWatch() { return false; }` -/
def supportsWatch : Bool := false

/-- `openSync`: throws `EROFS` when `isWriteFlag(flags)`, otherwise calls the
subclass's `openReadonlySync`. -/
def openSync (b : ReadonlyBackend) (entryPath flags : String) (mode : Option Nat) :
    Except ErrnoError VirtualFileHandle :=
  if isWriteFlag flags then
    .error (createErrnoError EROFS "open" entryPath)
  else
    .ok (b.openReadonlySync entryPath flags mode)

/-- `async open` delegates to `openSync`.  (`open` is a Lean keyword, hence the
name `openAsync`.) -/
def openAsync (b : ReadonlyBackend) (entryPath flags : String) (mode : Option Nat) :
    Except ErrnoError VirtualFileHandle :=
  openSync b entryPath flags mode

/-- `mkdirSync`: unconditionally throws `EROFS`. -/
def mkdirSync (entryPath : String) : Except ErrnoError Unit :=
  .error (createErrnoError EROFS "mkdir" entryPath)

/-- `async mkdir` delegates to `mkdirSync`. -/
def mkdir (entryPath : String) : Except ErrnoError Unit :=
  mkdirSync entryPath

/-- `rmdirSync`: unconditionally throws `EROFS`. -/
def rmdirSync (entryPath : String) : Except ErrnoError Unit :=
  .error (createErrnoError EROFS "rmdir" entryPath)

/-- `async rmdir` delegates to `rmdirSync`. -/
def rmdir (entryPath : String) : Except ErrnoError Unit :=
  rmdirSync entryPath

/-- `unlinkSync`: unconditionally throws `EROFS`. -/
def unlinkSync (entryPath : String) : Except ErrnoError Unit :=
  .error (createErrnoError EROFS "unlink" entryPath)

/-- `async unlink` delegates to `unlinkSync`. -/
def unlink (entryPath : String) : Except ErrnoError Unit :=
  unlinkSync entryPath

/-- `renameSync`: unconditionally throws `EROFS` (attached to `oldPath`). -/
def renameSync (oldPath _newPath : String) : Except ErrnoError Unit :=
  .error (createErrnoError EROFS "rename" oldPath)

/-- `async rename` delegates to `renameSync`. -/
def rename (oldPath newPath : String) : Except ErrnoError Unit :=
  renameSync oldPath newPath

/-- `symlinkSync`: unconditionally throws `EROFS` (attached to `entryPath`). -/
def symlinkSync (_target entryPath : String) (_type? : Option String) : Except ErrnoError Unit :=
  .error (createErrnoError EROFS "symlink" entryPath)

/-- `async symlink` delegates to `symlinkSync`. -/
def symlink (target entryPath : String) (type? : Option String) : Except ErrnoError Unit :=
  symlinkSync target entryPath type?

end ReadonlyVirtualProvider

/-! ## vfs/utils.ts — `normalizeVfsPath`

`normalizeVfsPath` first calls Node's `path.posix.normalize`, so we embed that
function as well.  Node's `normalizeString(path, allowAboveRoot, '/', ...)` walks the
path segment by segment (segments are the pieces between `/` separators): empty
segments and `.` are dropped; `..` pops the previously kept segment when there is one
and it is not itself `..`, otherwise it is kept only when `allowAboveRoot` is true
(i.e. for relative inputs); every other segment is kept.  Kept segments are joined
with single `/` separators.  We embed paths as `List Char`; `segStep` processes one
segment with the accumulator in reverse order. -/

/-- Split a character list at `/` separators; the resulting pieces are the segments
Node's `normalizeString` character loop delimits. -/
def splitSlash : List Char → List (List Char)
  | [] => [[]]
  | c :: cs =>
    if c = '/' then [] :: splitSlash cs
    else
      match splitSlash cs with
      | [] => [[c]]
      | s :: rest => (c :: s) :: rest

/-- Join segments with single `/` separators, as `normalizeString` does when it
appends `res += separator + segment`. -/
def joinSegs : List (List Char) → List Char
  | [] => []
  | [s] => s
  | s :: rest => s ++ '/' :: joinSegs rest

/-- One step of `normalizeString`'s segment processing (`acc` holds the kept
segments in reverse order). -/
def segStep (allowAboveRoot : Bool) (acc : List (List Char)) (seg : List Char) :
    List (List Char) :=
  if seg = [] ∨ seg = ['.'] then acc
  else if seg = ['.', '.'] then
    match acc with
    | [] => if allowAboveRoot then [seg] else []
    | top :: rest => if top = ['.', '.'] then (if allowAboveRoot then seg :: acc else acc) else rest
  else seg :: acc

/-- Node's `normalizeString(path, allowAboveRoot, '/', isPosixPathSeparator)`. -/
def normalizeString (p : List Char) (allowAboveRoot : Bool) : List Char :=
  joinSegs (((splitSlash p).foldl (segStep allowAboveRoot) []).reverse)

/-- Node's `path.posix.normalize`. -/
def posixNormalize (p : List Char) : List Char :=
  if p = [] then ['.']
  else
    let isAbs := p.head? = some '/'
    let trailing := p.getLast? = some '/'
    let n := normalizeString p (!isAbs)
    if n = [] then
      if isAbs then ['/'] else if trailing then ['.', '/'] else ['.']
    else
      let n' := if trailing then n ++ ['/'] else n
      if isAbs then '/' :: n' else n'

/-- The two fix-ups `normalizeVfsPath` applies after `path.posix.normalize`:
`if (!normalized.startsWith("/")) normalized = "/" + normalized;` and
`if (normalized.length > 1 && normalized.endsWith("/")) normalized = normalized.slice(0, -1);`. -/
def ensureLeadStripTrail (normalized : List Char) : List Char :=
  let n := if normalized.head? ≠ some '/' then '/' :: normalized else normalized
  if n.length > 1 ∧ n.getLast? = some '/' then n.dropLast else n

/-- `normalizeVfsPath` from `src/host/src/vfs/utils.ts` on the character level:
posix-normalize, ensure a leading `/`, drop a trailing `/` except for the root. -/
def normalizeVfsPathChars (inputPath : List Char) : List Char :=
  ensureLeadStripTrail (posixNormalize inputPath)

/-- `normalizeVfsPath` on `String`s. -/
def normalizeVfsPath (inputPath : String) : String :=
  ⟨normalizeVfsPathChars inputPath.data⟩

/-- A segment `normalizeString` may keep for a relative input: nonempty, not `.`,
slash-free. -/
def GoodSeg (seg : List Char) : Prop :=
  seg ≠ [] ∧ seg ≠ ['.'] ∧ '/' ∉ seg

/-- A segment `normalizeString` may keep for an absolute input: additionally not
`..`. -/
def CanonSeg (seg : List Char) : Prop :=
  GoodSeg seg ∧ seg ≠ ['.', '.']

/-! ## vfs/utils.ts — `VirtualDirent`, `createVirtualDirStats`, `formatVirtualEntries` -/

/-- `VirtualDirent`: a synthesized directory entry holding only its name. -/
structure VirtualDirent where
  name : String
  deriving DecidableEq, Repr

namespace VirtualDirent

def isFile (_ : VirtualDirent) : Bool := false

def isDirectory (_ : VirtualDirent) : Bool := true

def isSymbolicLink (_ : VirtualDirent) : Bool := false

def isBlockDevice (_ : VirtualDirent) : Bool := false

def isCharacterDevice (_ : VirtualDirent) : Bool := false

def isFIFO (_ : VirtualDirent) : Bool := false

def isSocket (_ : VirtualDirent) : Bool := false

end VirtualDirent

/-- The `fs.Stats`-shaped record `createVirtualDirStats` fills in. -/
structure VirtualStats where
  dev : Nat
  mode : Nat
  nlink : Nat
  uid : Nat
  gid : Nat
  rdev : Nat
  blksize : Nat
  ino : Nat
  size : Nat
  blocks : Nat
  atimeMs : Nat
  mtimeMs : Nat
  ctimeMs : Nat
  birthtimeMs : Nat
  deriving DecidableEq, Repr

/-- `createVirtualDirStats`: synthesizes directory stats.  `Date.now()` is an external
input, taken as the parameter `now`. -/
def createVirtualDirStats (now : Nat) : VirtualStats :=
  { dev := 0
    mode := 0o040755
    nlink := 1
    uid := 0
    gid := 0
    rdev := 0
    blksize := 4096
    ino := 0
    size := 4096
    blocks := 8
    atimeMs := now
    mtimeMs := now
    ctimeMs := now
    birthtimeMs := now }

/-- `formatVirtualEntries`: returns the name list unchanged when `withTypes` is false,
otherwise wraps each name in a `VirtualDirent`.  The TypeScript return type
`string[] | fs.Dirent[]` is embedded as a sum. -/
def formatVirtualEntries (entries : List String) (withTypes : Bool) :
    List String ⊕ List VirtualDirent :=
  if !withTypes then .inl entries
  else .inr (entries.map VirtualDirent.mk)

/-! ## exec.ts — frame codec

Byte buffers are embedded as `List Nat` whose elements are byte values. -/

/-- `const MAX_FRAME = 4 * 1024 * 1024;` -/
def MAX_FRAME : Nat := 4 * 1024 * 1024

/-- `FrameReader`'s mutable state: `buffer` and `expectedLength`. -/
structure FrameReader where
  buffer : List Nat
  expectedLength : Option Nat
  deriving DecidableEq, Repr

/-- A fresh reader: `buffer = Buffer.alloc(0)`, `expectedLength = null`. -/
def FrameReader.init : FrameReader := ⟨[], none⟩

/-- `buffer.readUInt32BE(0)`: big-endian 32-bit read of the first four bytes. -/
def readUInt32BE (b : List Nat) : Nat :=
  b.headI * 2 ^ 24 + (b.drop 1).headI * 2 ^ 16 + (b.drop 2).headI * 2 ^ 8 +
    (b.drop 3).headI

/-- The outcome of one `push` call: the reader's state afterwards, the frames handed
to `onFrame` in order, and the `Frame too large` message if that error was thrown
(callbacks already made before the throw are kept, as in the JavaScript). -/
structure PushResult where
  state : FrameReader
  frames : List (List Nat)
  thrown : Option String
  deriving DecidableEq, Repr

/-- The `while (true)` loop of `FrameReader.push`, entered with
`expectedLength === null`: with fewer than 4 buffered bytes, wait; otherwise read the
length prefix, drop it from the buffer, throw if the length exceeds `MAX_FRAME`, wait
if the payload is incomplete, else emit the frame and continue on the remainder. -/
def drainFrames (buf : List Nat) : PushResult :=
  if _h4 : buf.length < 4 then ⟨⟨buf, none⟩, [], none⟩
  else
    let len := readUInt32BE buf
    let rest := buf.drop 4
    if len > MAX_FRAME then
      ⟨⟨rest, some len⟩, [], some ("Frame too large: " ++ toString len)⟩
    else if rest.length < len then ⟨⟨rest, some len⟩, [], none⟩
    else
      let r := drainFrames (rest.drop len)
      ⟨r.state, rest.take len :: r.frames, r.thrown⟩
termination_by buf.length
decreasing_by
  simp only [List.length_drop]
  omega

/-- `FrameReader.push(chunk, onFrame)`: concatenate the chunk onto the buffer, then
run the loop.  When `expectedLength` is already set the loop first completes that
frame (without re-checking `MAX_FRAME`, as in the source) before returning to the
header-reading state. -/
def FrameReader.push (st : FrameReader) (chunk : List Nat) : PushResult :=
  let buf := st.buffer ++ chunk
  match st.expectedLength with
  | none => drainFrames buf
  | some len =>
    if buf.length < len then ⟨⟨buf, some len⟩, [], none⟩
    else
      let r := drainFrames (buf.drop len)
      ⟨r.state, buf.take len :: r.frames, r.thrown⟩

/-- `header.writeUInt32BE(n, 0)`: the four big-endian bytes of `n`. -/
def be32 (n : Nat) : List Nat :=
  [n / 2 ^ 24 % 256, n / 2 ^ 16 % 256, n / 2 ^ 8 % 256, n % 256]

/-- One encoded frame: 4-byte big-endian length prefix followed by the payload, as
built in `main`'s connect handler (`Buffer.concat([header, payload])`). -/
def encodeFrame (payload : List Nat) : List Nat :=
  be32 payload.length ++ payload

/-- Feed a byte list to a reader one single-byte chunk at a time (worst-case
fragmentation), accumulating the emitted frames; stops at a thrown error, as the
socket data handler would. -/
def feedBytes (st : FrameReader) : List Nat → PushResult
  | [] => ⟨st, [], none⟩
  | b :: bs =>
    let r := FrameReader.push st [b]
    match r.thrown with
    | some e => ⟨r.state, r.frames, some e⟩
    | none =>
      let rest := feedBytes r.state bs
      ⟨rest.state, r.frames ++ rest.frames, rest.thrown⟩

/-! ## exec.ts — `normalize`

`cbor.decodeFirstSync` hands back JavaScript values: `Map`s for CBOR maps, arrays,
`Uint8Array`s (sometimes `Buffer`s), and scalars.  `normalize` rewrites `Map`s into
plain string-keyed objects and bare `Uint8Array`s into `Buffer`s, recursing through
maps and arrays; everything else (including plain objects) is returned unchanged. -/

/-- A decoded JavaScript value.  `bytes data isBuffer` is a `Uint8Array`, with
`isBuffer` recording whether it already is a `Buffer`; `obj` is a plain
string-keyed object (as `normalize` produces). -/
inductive JsValue where
  | jsMap (entries : List (JsValue × JsValue))
  | obj (fields : List (String × JsValue))
  | arr (items : List JsValue)
  | bytes (data : List Nat) (isBuffer : Bool)
  | num (n : Int)
  | str (s : String)
  | bool (b : Bool)
  | jsNull

mutual
/-- `String(key)`, JavaScript's string coercion, as applied to Map keys.  Scalars
follow JavaScript's rules; arrays comma-join their elements; byte arrays are
abbreviated to the typed-array comma join (a real `Buffer` key would UTF-8 decode —
the claims rely only on the coercion producing a string). -/
def jsToString : JsValue → String
  | .str s => s
  | .num n => toString n
  | .bool true => "true"
  | .bool false => "false"
  | .jsNull => "null"
  | .jsMap _ => "[object Map]"
  | .obj _ => "[object Object]"
  | .arr items => jsToStringList items
  | .bytes d _ => String.intercalate "," (d.map toString)

def jsToStringList : List JsValue → String
  | [] => ""
  | [v] => jsToString v
  | v :: rest => jsToString v ++ "," ++ jsToStringList rest
end

mutual
/-- `normalize(value)` from `src/host/src/exec.ts`: `Map` → plain object with
`String(key)` keys and normalized values; arrays map `normalize` over their items;
a `Uint8Array` that is not a `Buffer` becomes `Buffer.from(value)`; everything else
is returned as is. -/
def normalize : JsValue → JsValue
  | .jsMap entries => .obj (normalizeEntries entries)
  | .arr items => .arr (normalizeItems items)
  | .bytes d false => .bytes d true
  | v => v

/-- The `for (const [key, entry] of value.entries())` loop. -/
def normalizeEntries : List (JsValue × JsValue) → List (String × JsValue)
  | [] => []
  | (k, v) :: rest => (jsToString k, normalize v) :: normalizeEntries rest

/-- `value.map((entry) => normalize(entry))`. -/
def normalizeItems : List JsValue → List JsValue
  | [] => []
  | v :: rest => normalize v :: normalizeItems rest
end

mutual
/-- No JavaScript `Map` occurs anywhere in the value. -/
def mapFree : JsValue → Bool
  | .jsMap _ => false
  | .obj fields => mapFreeFields fields
  | .arr items => mapFreeItems items
  | _ => true

def mapFreeFields : List (String × JsValue) → Bool
  | [] => true
  | (_, v) :: rest => mapFree v && mapFreeFields rest

def mapFreeItems : List JsValue → Bool
  | [] => true
  | v :: rest => mapFree v && mapFreeItems rest
end

mutual
/-- Every byte-string value anywhere in the value is a `Buffer`. -/
def buffersNormalized : JsValue → Bool
  | .bytes _ isBuf => isBuf
  | .jsMap entries => bnEntries entries
  | .obj fields => bnFields fields
  | .arr items => bnItems items
  | _ => true

def bnEntries : List (JsValue × JsValue) → Bool
  | [] => true
  | (k, v) :: rest => buffersNormalized k && buffersNormalized v && bnEntries rest

def bnFields : List (String × JsValue) → Bool
  | [] => true
  | (_, v) :: rest => buffersNormalized v && bnFields rest

def bnItems : List JsValue → Bool
  | [] => true
  | v :: rest => buffersNormalized v && bnItems rest
end

mutual
/-- No plain object occurs anywhere in the value.  This delimits the portion of the
value space on which `normalize`'s recursion is exhaustive: it descends only through
`Map`s and arrays and returns plain objects (with their contents) unchanged.  The
`cbor` package decodes an all-string-keyed CBOR map to a plain object by default
(only maps with non-string keys become `Map`s), so decoded values may well contain
plain objects — see the C5 counterexample. -/
def objFree : JsValue → Bool
  | .obj _ => false
  | .jsMap entries => objFreeEntries entries
  | .arr items => objFreeItems items
  | _ => true

def objFreeEntries : List (JsValue × JsValue) → Bool
  | [] => true
  | (k, v) :: rest => objFree k && objFree v && objFreeEntries rest

def objFreeItems : List JsValue → Bool
  | [] => true
  | v :: rest => objFree v && objFreeItems rest
end

/-! ## exec.ts — CLI terminal-message handling

`main`'s `data` handler decodes each frame and reacts: `exec_output` streams bytes
to stdout or stderr, `exec_response` ends the socket and exits with
`exit_code ?? 1` (logging the signal to stderr if present), `error` logs to stderr
and exits 1.  The socket `error` handler logs and exits 1, the `end` handler exits 1.
JavaScript `message.p.exit_code ?? 1` is embedded as `Option Int` with `getD 1`. -/

/-- An incoming message as `main` consumes it after `normalize`. -/
inductive IncomingMessage where
  | execOutput (stream : String) (data : List Nat)
  | execResponse (exit_code : Option Int) (signal : Option Int)
  | errorMsg (code : String) (message : String)
  deriving DecidableEq, Repr

/-- The observable effect of one handler run: byte chunks written to stdout, byte
chunks written to stderr, `console.error` lines (also stderr), and the
`process.exit` status if the handler exits. -/
structure CliEffect where
  stdoutData : List (List Nat)
  stderrData : List (List Nat)
  stderrLines : List String
  exit : Option Int
  deriving DecidableEq, Repr

/-- The frame callback of `main`'s `data` handler, for one decoded message. -/
def handleMessage : IncomingMessage → CliEffect
  | .execOutput stream data =>
    if stream = "stdout" then ⟨[data], [], [], none⟩
    else ⟨[], [data], [], none⟩
  | .execResponse exit_code signal =>
    let code := exit_code.getD 1
    { stdoutData := []
      stderrData := []
      stderrLines :=
        match signal with
        | some sig => ["process exited due to signal " ++ toString sig]
        | none => []
      exit := some code }
  | .errorMsg code message =>
    ⟨[], [], ["error " ++ code ++ ": " ++ message], some 1⟩

/-- `socket.on("error", ...)`: log `socket error: ...` and `process.exit(1)`. -/
def onSocketError (msg : String) : CliEffect :=
  ⟨[], [], ["socket error: " ++ msg], some 1⟩

/-- `socket.on("end", ...)`: `process.exit(1)`. -/
def onSocketEnd : CliEffect :=
  ⟨[], [], [], some 1⟩

/-- The framing step of the socket `data` handler: `reader.push(chunk, ...)`.  When
`push` throws (a protocol violation such as an oversized declared length), the
exception escapes the handler uncaught; Node's default uncaught-exception handling —
modelled here, since it is runtime behaviour rather than repository code — prints
the error to stderr and terminates the process with status 1.  Otherwise the decoded
frames proceed to message handling. -/
def onSocketData (st : FrameReader) (chunk : List Nat) :
    FrameReader × List (List Nat) × Option CliEffect :=
  let r := FrameReader.push st chunk
  match r.thrown with
  | some e => (r.state, r.frames, some ⟨[], [], [e], some 1⟩)
  | none => (r.state, r.frames, none)

/-! ## test/helpers/vm-fixture.ts — session pool (`getEntry`)

Node's event loop is single-threaded: each `getEntry` call runs synchronously from
its start up to the first `await` inside the async IIFE.  In that synchronous prefix
it checks `pool`, then `pending`, and otherwise invokes `VM.create` (the factory),
builds the creation promise and registers it in `pending` before yielding, so a
concurrent caller can never miss it.  We model the tables as association lists, VM
entries and creation promises by numeric ids, and count factory invocations. -/

structure PoolState where
  pool : List (String × Nat)
  pending : List (String × Nat)
  nextId : Nat
  factoryCalls : Nat
  deriving DecidableEq, Repr

/-- What one synchronous run of `getEntry` hands its caller: the cached entry, the
in-flight creation promise it will await, or a freshly started creation (the only
case that invokes `VM.create`). -/
inductive GetOutcome where
  | cached (vmId : Nat)
  | awaitPending (promiseId : Nat)
  | startedNew (promiseId : Nat)
  deriving DecidableEq, Repr

/-- The synchronous prefix of `getEntry(key, options)`. -/
def getEntry (s : PoolState) (key : String) : PoolState × GetOutcome :=
  match s.pool.lookup key with
  | some vmId => (s, .cached vmId)
  | none =>
    match s.pending.lookup key with
    | some pid => (s, .awaitPending pid)
    | none =>
      let pid := s.nextId
      ({ s with pending := (key, pid) :: s.pending, nextId := s.nextId + 1,
                factoryCalls := s.factoryCalls + 1 }, .startedNew pid)

/-- The continuation after `VM.create` resolves: `pool.set(key, entry)` and, in the
`finally`, `pending.delete(key)`.  `vmId` is the entry the creation promise resolves
to, delivered to every caller awaiting that promise. -/
def completeCreation (s : PoolState) (key : String) (vmId : Nat) : PoolState :=
  { s with pool := (key, vmId) :: s.pool,
           pending := s.pending.filter (fun kv => kv.1 != key) }

/-- `n` back-to-back `getEntry` calls for `key` — the event-loop serialization of
`n` concurrent callers arriving before the creation resolves — collecting each
caller's outcome. -/
def acquireN (s : PoolState) (key : String) : Nat → PoolState × List GetOutcome
  | 0 => (s, [])
  | n + 1 =>
    let r := getEntry s key
    let rest := acquireN r.1 key n
    (rest.1, r.2 :: rest.2)

/-- The fresh pool: both tables empty, nothing created yet. -/
def initialPoolState : PoolState := ⟨[], [], 0, 0⟩

/-! ## test/helpers/vm-fixture.ts — `Semaphore` and `withVm`

`withVm` awaits the pool entry, then `await entry.semaphore.acquire()`, runs the
caller's `fn` inside `try`, and calls `entry.semaphore.release()` in `finally`.  We
model the concurrent `withVm` callers for one key as a transition system: each task
is before `acquire`, queued inside `acquire`, running `fn` (its critical section),
or finished.  The event loop makes each of these transitions atomic. -/

/-- The `Semaphore` state: `count`, and the FIFO queue of suspended acquirers
(`queue.push` in `acquire`, `queue.shift` in `release`), identified by task id. -/
structure SemState where
  count : Nat
  queue : List Nat
  deriving DecidableEq, Repr

/-- The phase of one `withVm` caller. -/
inductive Phase where
  | start
  | waiting
  | critical
  | finished
  deriving DecidableEq, Repr

/-- One interleaving state: the per-key semaphore plus each caller's phase (task
ids index the list). -/
structure WithVmSystem where
  sem : SemState
  tasks : List Phase
  deriving DecidableEq, Repr

/-- `Semaphore.release()`: wake the first queued waiter if any (`queue.shift()`,
`count` untouched), else increment `count`.  Also returns the woken waiter. -/
def releaseStep (sem : SemState) : SemState × Option Nat :=
  match sem.queue with
  | j :: rest => (⟨sem.count, rest⟩, some j)
  | [] => (⟨sem.count + 1, []⟩, none)

/-- Task `i` finishes its callback — normally or by throwing (`_threw`): the
`finally` releases the semaphore either way, and a woken waiter enters its own
critical section. -/
def finishTask (s : WithVmSystem) (i : Nat) (_threw : Bool) : WithVmSystem :=
  match releaseStep s.sem with
  | (sem2, some j) => ⟨sem2, (s.tasks.set i .finished).set j .critical⟩
  | (sem2, none) => ⟨sem2, s.tasks.set i .finished⟩

/-- The atomic event-loop steps of concurrent `withVm` runs on one key: a task
reaches `acquire` and either takes the semaphore (`count > 0`, decrement) or queues
(`count = 0`); a task finishes its callback (normally or throwing) and releases. -/
inductive WithVmStep : WithVmSystem → WithVmSystem → Prop where
  | acquireFast (i : Nat) {s : WithVmSystem} (h : s.tasks[i]? = some Phase.start)
      (hc : 0 < s.sem.count) :
      WithVmStep s ⟨⟨s.sem.count - 1, s.sem.queue⟩, s.tasks.set i Phase.critical⟩
  | acquireWait (i : Nat) {s : WithVmSystem} (h : s.tasks[i]? = some Phase.start)
      (hc : s.sem.count = 0) :
      WithVmStep s ⟨⟨0, s.sem.queue ++ [i]⟩, s.tasks.set i Phase.waiting⟩
  | finish (i : Nat) (threw : Bool) {s : WithVmSystem}
      (h : s.tasks[i]? = some Phase.critical) :
      WithVmStep s (finishTask s i threw)

/-- `n` concurrent `withVm` callers on a fresh key: `new Semaphore(1)`, everyone
before `acquire`. -/
def initWithVm (n : Nat) : WithVmSystem := ⟨⟨1, []⟩, List.replicate n Phase.start⟩

/-- States reachable by interleaving `n` callers from the fresh state. -/
inductive ReachableWithVm (n : Nat) : WithVmSystem → Prop where
  | init : ReachableWithVm n (initWithVm n)
  | step {s t : WithVmSystem} : ReachableWithVm n s → WithVmStep s t →
      ReachableWithVm n t

/-- The inductive invariant: queued tasks are waiting and queued only once, and the
semaphore is either free (`count = 1`, empty queue, nobody critical) or held
(`count = 0`) by exactly one task in its critical section. -/
def WithVmInv (s : WithVmSystem) : Prop :=
  (∀ j ∈ s.sem.queue, s.tasks[j]? = some Phase.waiting) ∧
  s.sem.queue.Nodup ∧
  ((s.sem.count = 1 ∧ s.sem.queue = [] ∧ ∀ i : Nat, s.tasks[i]? ≠ some Phase.critical) ∨
   (s.sem.count = 0 ∧ ∃ i : Nat, s.tasks[i]? = some Phase.critical ∧
      ∀ j : Nat, s.tasks[j]? = some Phase.critical → j = i))

/-! ## Lemmas: segments, `splitSlash`, `joinSegs` -/

theorem splitSlash_ne_nil (l : List Char) : splitSlash l ≠ [] := by
  cases l with
  | nil => simp [splitSlash]
  | cons c cs =>
    rw [splitSlash]
    split
    · simp
    · split <;> simp

theorem no_slash_of_mem_splitSlash {l p : List Char} (hp : p ∈ splitSlash l) :
    '/' ∉ p := by
  induction l generalizing p with
  | nil =>
    simp [splitSlash] at hp
    simp [hp]
  | cons c cs ih =>
    rw [splitSlash] at hp
    by_cases hc : c = '/'
    · rw [if_pos hc] at hp
      rcases List.mem_cons.mp hp with h | h
      · simp [h]
      · exact ih h
    · rw [if_neg hc] at hp
      cases hcs : splitSlash cs with
      | nil => exact absurd hcs (splitSlash_ne_nil cs)
      | cons s rest =>
        rw [hcs] at hp
        rcases List.mem_cons.mp hp with h | h
        · subst h
          simp only [List.mem_cons, not_or]
          refine ⟨fun h => hc h.symm, ?_⟩
          exact ih (hcs ▸ List.mem_cons_self s rest)
        · exact ih (hcs ▸ List.mem_cons_of_mem s h)

theorem splitSlash_of_no_slash {l : List Char} (h : '/' ∉ l) : splitSlash l = [l] := by
  induction l with
  | nil => rfl
  | cons c cs ih =>
    simp only [List.mem_cons, not_or] at h
    rw [splitSlash, if_neg (fun hc => h.1 hc.symm), ih h.2]

theorem splitSlash_append {x t : List Char} (h : '/' ∉ x) :
    splitSlash (x ++ '/' :: t) = x :: splitSlash t := by
  induction x with
  | nil => simp [splitSlash]
  | cons c cs ih =>
    simp only [List.mem_cons, not_or] at h
    rw [List.cons_append, splitSlash, if_neg (fun hc => h.1 hc.symm), ih h.2]

theorem splitSlash_joinSegs {segs : List (List Char)} (hne : segs ≠ [])
    (h : ∀ x ∈ segs, '/' ∉ x) : splitSlash (joinSegs segs) = segs := by
  induction segs with
  | nil => exact absurd rfl hne
  | cons x rest ih =>
    cases rest with
    | nil => rw [joinSegs, splitSlash_of_no_slash (h x (List.mem_cons_self x []))]
    | cons y rest' =>
      rw [joinSegs, splitSlash_append (h x (List.mem_cons_self _ _)),
        ih (List.cons_ne_nil _ _) (fun z hz => h z (List.mem_cons_of_mem _ hz))]
      exact fun hcontra => List.noConfusion hcontra

theorem goodSeg_segStep (aar : Bool) (acc : List (List Char)) (seg : List Char)
    (hacc : ∀ x ∈ acc, GoodSeg x) (hseg : '/' ∉ seg) :
    ∀ x ∈ segStep aar acc seg, GoodSeg x := by
  intro x hx
  rw [segStep.eq_def] at hx
  split at hx
  · exact hacc x hx
  · rename_i h1
    push_neg at h1
    split at hx
    · rename_i h2
      subst h2
      split at hx
      · split at hx
        · rcases List.mem_singleton.mp hx with h
          subst h
          exact ⟨by decide, by decide, by decide⟩
        · exact absurd hx (List.not_mem_nil x)
      · rename_i top rest htop
        split at hx
        · split at hx
          · rcases List.mem_cons.mp hx with h | h
            · subst h; exact ⟨by decide, by decide, by decide⟩
            · exact hacc x h
          · exact hacc x hx
        · exact hacc x (List.mem_cons_of_mem _ hx)
    · rename_i h2
      rcases List.mem_cons.mp hx with h | h
      · subst h; exact ⟨h1.1, h1.2, hseg⟩
      · exact hacc x h

theorem canonSeg_segStep (acc : List (List Char)) (seg : List Char)
    (hacc : ∀ x ∈ acc, CanonSeg x) (hseg : '/' ∉ seg) :
    ∀ x ∈ segStep false acc seg, CanonSeg x := by
  intro x hx
  rw [segStep.eq_def] at hx
  split at hx
  · exact hacc x hx
  · rename_i h1
    push_neg at h1
    split at hx
    · rename_i h2
      subst h2
      split at hx
      · simp only [Bool.false_eq_true, if_false] at hx
        exact absurd hx (List.not_mem_nil x)
      · split at hx
        · simp only [Bool.false_eq_true, if_false] at hx
          exact hacc x hx
        · exact hacc x (List.mem_cons_of_mem _ hx)
    · rename_i h2
      rcases List.mem_cons.mp hx with h | h
      · subst h; exact ⟨⟨h1.1, h1.2, hseg⟩, h2⟩
      · exact hacc x h

theorem goodSeg_foldl (aar : Bool) (ps : List (List Char)) (acc : List (List Char))
    (hps : ∀ p ∈ ps, '/' ∉ p) (hacc : ∀ x ∈ acc, GoodSeg x) :
    ∀ x ∈ ps.foldl (segStep aar) acc, GoodSeg x := by
  induction ps generalizing acc with
  | nil => simpa using hacc
  | cons p ps' ih =>
    rw [List.foldl_cons]
    exact ih _ (fun q hq => hps q (List.mem_cons_of_mem _ hq))
      (goodSeg_segStep aar acc p hacc (hps p (List.mem_cons_self _ _)))

theorem canonSeg_foldl (ps : List (List Char)) (acc : List (List Char))
    (hps : ∀ p ∈ ps, '/' ∉ p) (hacc : ∀ x ∈ acc, CanonSeg x) :
    ∀ x ∈ ps.foldl (segStep false) acc, CanonSeg x := by
  induction ps generalizing acc with
  | nil => simpa using hacc
  | cons p ps' ih =>
    rw [List.foldl_cons]
    exact ih _ (fun q hq => hps q (List.mem_cons_of_mem _ hq))
      (canonSeg_segStep acc p hacc (hps p (List.mem_cons_self _ _)))

theorem foldl_segStep_canon (segs : List (List Char)) (acc : List (List Char))
    (h : ∀ x ∈ segs, CanonSeg x) :
    segs.foldl (segStep false) acc = segs.reverse ++ acc := by
  induction segs generalizing acc with
  | nil => simp
  | cons x rest ih =>
    obtain ⟨⟨hne, hdot, _⟩, hdd⟩ := h x (List.mem_cons_self _ _)
    have hstep : segStep false acc x = x :: acc := by
      rw [segStep.eq_def, if_neg (not_or.mpr ⟨hne, hdot⟩), if_neg hdd]
    rw [List.foldl_cons, hstep, ih (x :: acc) (fun z hz => h z (List.mem_cons_of_mem _ hz))]
    simp

theorem joinSegs_ne_nil {segs : List (List Char)} (hne : segs ≠ [])
    (h : ∀ x ∈ segs, x ≠ []) : joinSegs segs ≠ [] := by
  cases segs with
  | nil => exact absurd rfl hne
  | cons x rest =>
    cases rest with
    | nil => simpa [joinSegs] using h x (by simp)
    | cons y rest' => simp [joinSegs]

theorem joinSegs_head_ne_slash {segs : List (List Char)} (hne : segs ≠ [])
    (h : ∀ x ∈ segs, GoodSeg x) : (joinSegs segs).head? ≠ some '/' := by
  cases segs with
  | nil => exact absurd rfl hne
  | cons x rest =>
    obtain ⟨hxne, -, hxs⟩ := h x (List.mem_cons_self _ _)
    cases x with
    | nil => exact absurd rfl hxne
    | cons c cs =>
      have hc : c ≠ '/' := by
        intro hc
        exact hxs (by rw [hc]; exact List.mem_cons_self _ _)
      cases rest with
      | nil =>
        rw [joinSegs]
        simpa using fun hcontra => hc hcontra
      | cons y rest' =>
        rw [joinSegs, List.cons_append]
        · simpa using fun hcontra => hc hcontra
        · exact fun hcontra => List.noConfusion hcontra


theorem joinSegs_getLast_ne_slash {segs : List (List Char)} (hne : segs ≠ [])
    (h : ∀ x ∈ segs, GoodSeg x) : (joinSegs segs).getLast? ≠ some '/' := by
  induction segs with
  | nil => exact absurd rfl hne
  | cons x rest ih =>
    cases rest with
    | nil =>
      obtain ⟨hxne, -, hxs⟩ := h x (List.mem_cons_self _ _)
      rw [joinSegs, List.getLast?_eq_getLast_of_ne_nil hxne]
      intro hcontra
      simp only [Option.some.injEq] at hcontra
      exact hxs (hcontra ▸ List.getLast_mem hxne)
    | cons y rest' =>
      have hrest : joinSegs (y :: rest') ≠ [] :=
        joinSegs_ne_nil (List.cons_ne_nil _ _)
          (fun z hz => (h z (List.mem_cons_of_mem _ hz)).1)
      rw [joinSegs, List.getLast?_append_of_ne_nil x (List.cons_ne_nil _ _),
        ← List.singleton_append, List.getLast?_append_of_ne_nil ['/'] hrest]
      · exact ih (List.cons_ne_nil _ _) (fun z hz => h z (List.mem_cons_of_mem _ hz))
      · exact fun hcontra => List.noConfusion hcontra

/-! ## Lemmas: `ensureLeadStripTrail` on the shapes `posixNormalize` produces -/

theorem wrap_abs_noslash {n : List Char} (hne : n ≠ []) (hlast : n.getLast? ≠ some '/') :
    ensureLeadStripTrail ('/' :: n) = '/' :: n := by
  simp only [ensureLeadStripTrail]
  rw [if_neg (show ¬(('/' :: n).head? ≠ some '/') from fun h => h rfl)]
  have hl : ('/' :: n).getLast? = n.getLast? := by
    rw [← List.singleton_append, List.getLast?_append_of_ne_nil _ hne]
  rw [if_neg (show ¬(('/' :: n).length > 1 ∧ ('/' :: n).getLast? = some '/') from
    fun hcon => hlast (hl ▸ hcon.2))]

theorem wrap_abs_trail {n : List Char} (hne : n ≠ []) :
    ensureLeadStripTrail (('/' :: n) ++ ['/']) = '/' :: n := by
  simp only [ensureLeadStripTrail]
  have hh : (('/' :: n) ++ ['/']).head? = some '/' := rfl
  rw [if_neg (show ¬((('/' :: n) ++ ['/']).head? ≠ some '/') from fun h => h hh),
    if_pos (show (('/' :: n) ++ ['/']).length > 1 ∧
        (('/' :: n) ++ ['/']).getLast? = some '/' from
      ⟨by simp only [List.length_append, List.length_cons]; omega,
        List.getLast?_concat ..⟩),
    List.dropLast_concat]

theorem wrap_rel_noslash {n : List Char} (hne : n ≠ []) (hhead : n.head? ≠ some '/')
    (hlast : n.getLast? ≠ some '/') : ensureLeadStripTrail n = '/' :: n := by
  simp only [ensureLeadStripTrail]
  rw [if_pos hhead]
  have hl : ('/' :: n).getLast? = n.getLast? := by
    rw [← List.singleton_append, List.getLast?_append_of_ne_nil _ hne]
  rw [if_neg (show ¬(('/' :: n).length > 1 ∧ ('/' :: n).getLast? = some '/') from
    fun hcon => hlast (hl ▸ hcon.2))]

theorem wrap_rel_trail {n : List Char} (hne : n ≠ []) (hhead : n.head? ≠ some '/') :
    ensureLeadStripTrail (n ++ ['/']) = '/' :: n := by
  simp only [ensureLeadStripTrail]
  have hh : (n ++ ['/']).head? = n.head? := List.head?_append_of_ne_nil n hne
  rw [if_pos (show (n ++ ['/']).head? ≠ some '/' by rw [hh]; exact hhead)]
  have hc : '/' :: (n ++ ['/']) = ('/' :: n) ++ ['/'] := by rw [List.cons_append]
  rw [hc, if_pos (show (('/' :: n) ++ ['/']).length > 1 ∧
      (('/' :: n) ++ ['/']).getLast? = some '/' from
    ⟨by simp only [List.length_append, List.length_cons]; omega,
      List.getLast?_concat ..⟩), List.dropLast_concat]

/-! ## Lemmas: characterization of `posixNormalize` -/

theorem posixNormalize_abs {p : List Char} (hp : p.head? = some '/') :
    posixNormalize p = ['/'] ∨
    ∃ segs, segs ≠ [] ∧ (∀ x ∈ segs, CanonSeg x) ∧
      (posixNormalize p = '/' :: joinSegs segs ∨
       posixNormalize p = ('/' :: joinSegs segs) ++ ['/']) := by
  have hpne : p ≠ [] := by intro h; rw [h] at hp; exact Option.noConfusion hp
  have hcanon : ∀ x ∈ ((splitSlash p).foldl (segStep false) []).reverse, CanonSeg x :=
    fun x hx => canonSeg_foldl (splitSlash p) []
      (fun q hq => no_slash_of_mem_splitSlash hq)
      (fun z hz => absurd hz (List.not_mem_nil z)) x (List.mem_reverse.mp hx)
  by_cases hjs : joinSegs (((splitSlash p).foldl (segStep false) []).reverse) = []
  · left
    simp [posixNormalize, hpne, hp, normalizeString, hjs]
  · right
    refine ⟨((splitSlash p).foldl (segStep false) []).reverse,
      fun h => hjs (by rw [h]; rfl), hcanon, ?_⟩
    by_cases ht : p.getLast? = some '/'
    · right
      simp [posixNormalize, hpne, hp, normalizeString, hjs, ht]
    · left
      simp [posixNormalize, hpne, hp, normalizeString, hjs, ht]

theorem posixNormalize_rel {p : List Char} (hp : p.head? ≠ some '/') :
    posixNormalize p = ['.'] ∨ posixNormalize p = ['.', '/'] ∨
    ∃ segs, segs ≠ [] ∧ (∀ x ∈ segs, GoodSeg x) ∧
      (posixNormalize p = joinSegs segs ∨ posixNormalize p = joinSegs segs ++ ['/']) := by
  by_cases hpne : p = []
  · left; rw [hpne]; rfl
  · have hgood : ∀ x ∈ ((splitSlash p).foldl (segStep true) []).reverse, GoodSeg x :=
      fun x hx => goodSeg_foldl true (splitSlash p) []
        (fun q hq => no_slash_of_mem_splitSlash hq)
        (fun z hz => absurd hz (List.not_mem_nil z)) x (List.mem_reverse.mp hx)
    by_cases hjs : joinSegs (((splitSlash p).foldl (segStep true) []).reverse) = []
    · by_cases ht : p.getLast? = some '/'
      · right; left
        simp [posixNormalize, hpne, hp, normalizeString, hjs, ht]
      · left
        simp [posixNormalize, hpne, hp, normalizeString, hjs, ht]
    · right; right
      refine ⟨((splitSlash p).foldl (segStep true) []).reverse,
        fun h => hjs (by rw [h]; rfl), hgood, ?_⟩
      by_cases ht : p.getLast? = some '/'
      · right
        simp [posixNormalize, hpne, hp, normalizeString, hjs, ht]
      · left
        simp [posixNormalize, hpne, hp, normalizeString, hjs, ht]

theorem posixNormalize_canonical {segs : List (List Char)} (hne : segs ≠ [])
    (hc : ∀ x ∈ segs, CanonSeg x) :
    posixNormalize ('/' :: joinSegs segs) = '/' :: joinSegs segs := by
  have hjne : joinSegs segs ≠ [] := joinSegs_ne_nil hne (fun z hz => (hc z hz).1.1)
  have hgood : ∀ x ∈ segs, GoodSeg x := fun z hz => (hc z hz).1
  have hlast : ('/' :: joinSegs segs).getLast? ≠ some '/' := by
    rw [← List.singleton_append, List.getLast?_append_of_ne_nil _ hjne]
    exact joinSegs_getLast_ne_slash hne hgood
  have hsplit : splitSlash ('/' :: joinSegs segs) = [] :: segs := by
    rw [splitSlash, if_pos rfl, splitSlash_joinSegs hne (fun z hz => (hgood z hz).2.2)]
  have hfold : (([] :: segs).foldl (segStep false) []) = segs.reverse := by
    rw [List.foldl_cons, show segStep false [] [] = [] from rfl,
      foldl_segStep_canon segs [] hc, List.append_nil]
  have hns : normalizeString ('/' :: joinSegs segs) false = joinSegs segs := by
    rw [normalizeString, hsplit, hfold, List.reverse_reverse]
  simp [posixNormalize, hns, hjne, hlast]

/-! ## Lemmas: characterization of `normalizeVfsPathChars` -/

theorem nvpc_abs {p : List Char} (hp : p.head? = some '/') :
    normalizeVfsPathChars p = ['/'] ∨
    ∃ segs, segs ≠ [] ∧ (∀ x ∈ segs, CanonSeg x) ∧
      normalizeVfsPathChars p = '/' :: joinSegs segs := by
  rcases posixNormalize_abs hp with h | ⟨segs, hne, hc, h | h⟩
  · left; rw [normalizeVfsPathChars, h]; decide
  · right
    exact ⟨segs, hne, hc, by
      rw [normalizeVfsPathChars, h]
      exact wrap_abs_noslash (joinSegs_ne_nil hne fun z hz => (hc z hz).1.1)
        (joinSegs_getLast_ne_slash hne fun z hz => (hc z hz).1)⟩
  · right
    exact ⟨segs, hne, hc, by
      rw [normalizeVfsPathChars, h]
      exact wrap_abs_trail (joinSegs_ne_nil hne fun z hz => (hc z hz).1.1)⟩

theorem nvpc_rel {p : List Char} (hp : p.head? ≠ some '/') :
    ∃ t, t ≠ [] ∧ t.head? ≠ some '/' ∧ t.getLast? ≠ some '/' ∧
      normalizeVfsPathChars p = '/' :: t := by
  rcases posixNormalize_rel hp with h | h | ⟨segs, hne, hg, h | h⟩
  · exact ⟨['.'], by decide, by decide, by decide,
      by rw [normalizeVfsPathChars, h]; decide⟩
  · exact ⟨['.'], by decide, by decide, by decide,
      by rw [normalizeVfsPathChars, h]; decide⟩
  · refine ⟨joinSegs segs, joinSegs_ne_nil hne (fun z hz => (hg z hz).1),
      joinSegs_head_ne_slash hne hg, joinSegs_getLast_ne_slash hne hg, ?_⟩
    rw [normalizeVfsPathChars, h]
    exact wrap_rel_noslash (joinSegs_ne_nil hne fun z hz => (hg z hz).1)
      (joinSegs_head_ne_slash hne hg) (joinSegs_getLast_ne_slash hne hg)
  · refine ⟨joinSegs segs, joinSegs_ne_nil hne (fun z hz => (hg z hz).1),
      joinSegs_head_ne_slash hne hg, joinSegs_getLast_ne_slash hne hg, ?_⟩
    rw [normalizeVfsPathChars, h]
    exact wrap_rel_trail (joinSegs_ne_nil hne fun z hz => (hg z hz).1)
      (joinSegs_head_ne_slash hne hg)

theorem nvpc_idem_abs {p : List Char} (hp : p.head? = some '/') :
    normalizeVfsPathChars (normalizeVfsPathChars p) = normalizeVfsPathChars p := by
  rcases nvpc_abs hp with h | ⟨segs, hne, hc, h⟩
  · rw [h]; decide
  · rw [h, normalizeVfsPathChars, posixNormalize_canonical hne hc]
    exact wrap_abs_noslash (joinSegs_ne_nil hne fun z hz => (hc z hz).1.1)
      (joinSegs_getLast_ne_slash hne fun z hz => (hc z hz).1)

theorem nvpc_head (p : List Char) : (normalizeVfsPathChars p).head? = some '/' := by
  by_cases hp : p.head? = some '/'
  · rcases nvpc_abs hp with h | ⟨segs, -, -, h⟩ <;> rw [h] <;> rfl
  · obtain ⟨t, -, -, -, h⟩ := nvpc_rel hp
    rw [h]; rfl

theorem nvpc_last (p : List Char) :
    normalizeVfsPathChars p = ['/'] ∨ (normalizeVfsPathChars p).getLast? ≠ some '/' := by
  by_cases hp : p.head? = some '/'
  · rcases nvpc_abs hp with h | ⟨segs, hne, hc, h⟩
    · left; exact h
    · right
      rw [h, ← List.singleton_append,
        List.getLast?_append_of_ne_nil _ (joinSegs_ne_nil hne fun z hz => (hc z hz).1.1)]
      exact joinSegs_getLast_ne_slash hne fun z hz => (hc z hz).1
  · obtain ⟨t, htne, -, htlast, h⟩ := nvpc_rel hp
    right
    rw [h, ← List.singleton_append, List.getLast?_append_of_ne_nil _ htne]
    exact htlast

/-! ## C4: `normalizeVfsPath` -/

/-- C4, counterexample: `normalizeVfsPath` is not idempotent on every input string.
`normalizeVfsPath "" = "/."` (Node's `path.posix.normalize("")` is `"."`, which then
gains a leading slash), but `normalizeVfsPath "/." = "/"`. -/
theorem normalizeVfsPath_not_idempotent :
    normalizeVfsPath (normalizeVfsPath "") ≠ normalizeVfsPath "" := by decide

/-- C4 (amended): `normalizeVfsPath` is idempotent on every input that starts with a
slash (for an input lacking a leading slash the result may retain `.`/`..` segments
that a second pass would resolve, e.g. `"" ↦ "/." ↦ "/"`); the root maps to `/`;
every input lacking a leading slash gains exactly one; the result always starts with
`/` and has no trailing slash except when it is the root `/`. -/
theorem normalizeVfsPath_spec (s : String) :
    (s.data.head? = some '/' →
      normalizeVfsPath (normalizeVfsPath s) = normalizeVfsPath s) ∧
    normalizeVfsPath "/" = "/" ∧
    (s.data.head? ≠ some '/' →
      ∃ t, (normalizeVfsPath s).data = '/' :: t ∧ t.head? ≠ some '/') ∧
    (normalizeVfsPath s).data.head? = some '/' ∧
    (normalizeVfsPath s = "/" ∨ (normalizeVfsPath s).data.getLast? ≠ some '/') := by
  refine ⟨?_, by decide, ?_, nvpc_head s.data, ?_⟩
  · intro h
    exact congrArg String.mk (nvpc_idem_abs h)
  · intro h
    obtain ⟨t, -, hth, -, heq⟩ := nvpc_rel h
    exact ⟨t, heq, hth⟩
  · rcases nvpc_last s.data with h | h
    · left
      exact (congrArg String.mk h).trans (by decide)
    · right
      exact h

/-- C4, witness: the amended theorem applied at the concrete inputs `"/a/"` (idempotence
on an absolute path) and `"a"` (gaining exactly one leading slash). -/
theorem normalizeVfsPath_spec_witness :
    ("/a/".data.head? = some '/' ∧
      normalizeVfsPath (normalizeVfsPath "/a/") = normalizeVfsPath "/a/") ∧
    (¬ "a".data.head? = some '/' ∧
      ∃ t, (normalizeVfsPath "a").data = '/' :: t ∧ t.head? ≠ some '/') :=
  ⟨⟨by decide, (normalizeVfsPath_spec "/a/").1 (by decide)⟩,
   ⟨by decide, (normalizeVfsPath_spec "a").2.2.1 (by decide)⟩⟩

/-! ## Lemmas: frame codec -/

theorem readUInt32BE_be32 {n : Nat} (hn : n < 2 ^ 32) (rest : List Nat) :
    readUInt32BE (be32 n ++ rest) = n := by
  simp only [be32, readUInt32BE, List.cons_append, List.nil_append, List.headI,
    List.drop_succ_cons, List.drop_zero]
  omega

theorem be32_length (n : Nat) : (be32 n).length = 4 := rfl

theorem drainFrames_short {buf : List Nat} (h : buf.length < 4) :
    drainFrames buf = ⟨⟨buf, none⟩, [], none⟩ := by
  rw [drainFrames]
  simp [h]

theorem push_buffer_none (B chunk : List Nat) :
    FrameReader.push ⟨B, none⟩ chunk = drainFrames (B ++ chunk) := rfl

theorem drainFrames_emit {p : List Nat} (hlen : p.length ≤ MAX_FRAME) (rest : List Nat) :
    drainFrames (encodeFrame p ++ rest) =
      ⟨(drainFrames rest).state, p :: (drainFrames rest).frames,
        (drainFrames rest).thrown⟩ := by
  have hn : p.length < 2 ^ 32 := by
    have : MAX_FRAME < 2 ^ 32 := by decide
    omega
  have henc : encodeFrame p ++ rest = be32 p.length ++ (p ++ rest) := by
    rw [encodeFrame, List.append_assoc]
  rw [henc, drainFrames]
  have hlen4 : (be32 p.length ++ (p ++ rest)).length = 4 + (p.length + rest.length) := by
    simp [be32]
    omega
  rw [dif_neg (by omega)]
  have hdrop : (be32 p.length ++ (p ++ rest)).drop 4 = p ++ rest := by
    rw [show (4 : Nat) = (be32 p.length).length from rfl, List.drop_left]
  have hread : readUInt32BE (be32 p.length ++ (p ++ rest)) = p.length :=
    readUInt32BE_be32 hn _
  rw [hread, hdrop, if_neg (by omega), if_neg (by simp)]
  have htake : (p ++ rest).take p.length = p := List.take_left p rest
  have hdrop2 : (p ++ rest).drop p.length = rest := List.drop_left p rest
  rw [htake, hdrop2]

theorem feedBytes_fill {len : Nat} :
    ∀ (bs acc : List Nat), bs ≠ [] → acc.length + bs.length = len →
      feedBytes ⟨acc, some len⟩ bs = ⟨⟨[], none⟩, [acc ++ bs], none⟩ := by
  intro bs
  induction bs with
  | nil => intro acc h _; exact absurd rfl h
  | cons b bs' ih =>
    intro acc _ hsum
    simp only [List.length_cons] at hsum
    cases bs' with
    | nil =>
      simp only [List.length_nil] at hsum
      rw [feedBytes]
      have hlen : (acc ++ [b]).length = len := by
        simp only [List.length_append, List.length_cons, List.length_nil]
        omega
      have hpush : FrameReader.push ⟨acc, some len⟩ [b] =
          ⟨⟨[], none⟩, [acc ++ [b]], none⟩ := by
        simp only [FrameReader.push]
        rw [if_neg (by omega)]
        have h1 : (acc ++ [b]).drop len = [] := by rw [← hlen, List.drop_length]
        have h2 : (acc ++ [b]).take len = acc ++ [b] := by rw [← hlen, List.take_length]
        rw [h1, h2, drainFrames_short (by simp)]
      rw [hpush]
      simp [feedBytes]
    | cons b2 bs'' =>
      rw [feedBytes]
      have hlt : (acc ++ [b]).length < len := by
        simp only [List.length_append, List.length_cons, List.length_nil,
          List.length_cons] at hsum ⊢
        omega
      have hpush : FrameReader.push ⟨acc, some len⟩ [b] =
          ⟨⟨acc ++ [b], some len⟩, [], none⟩ := by
        simp only [FrameReader.push]
        rw [if_pos hlt]
      rw [hpush]
      have hrec := ih (acc ++ [b]) (List.cons_ne_nil _ _)
        (by simp only [List.length_append, List.length_cons, List.length_nil] at hsum ⊢
            omega)
      simp [hrec]

theorem feedBytes_buffer_step {B : List Nat} (b : Nat) (bs : List Nat)
    (h : B.length + 1 < 4) :
    feedBytes ⟨B, none⟩ (b :: bs) = feedBytes ⟨B ++ [b], none⟩ bs := by
  rw [feedBytes]
  have hpush : FrameReader.push ⟨B, none⟩ [b] = ⟨⟨B ++ [b], none⟩, [], none⟩ := by
    rw [push_buffer_none, drainFrames_short (by simp; omega)]
  rw [hpush]
  simp

theorem feedBytes_single (p : List Nat) (hlen : p.length ≤ MAX_FRAME) :
    feedBytes FrameReader.init (encodeFrame p) = ⟨FrameReader.init, [p], none⟩ := by
  obtain ⟨b0, b1, b2, b3, hb⟩ : ∃ b0 b1 b2 b3, be32 p.length = [b0, b1, b2, b3] :=
    ⟨_, _, _, _, rfl⟩
  have hn : p.length < 2 ^ 32 := by
    have : MAX_FRAME < 2 ^ 32 := by decide
    omega
  have hread : readUInt32BE [b0, b1, b2, b3] = p.length := by
    have := readUInt32BE_be32 hn ([] : List Nat)
    rwa [hb, List.append_nil] at this
  have hstep : encodeFrame p = b0 :: b1 :: b2 :: b3 :: p := by
    rw [encodeFrame, hb]; rfl
  rw [hstep, FrameReader.init]
  rw [feedBytes_buffer_step _ _ (by simp), feedBytes_buffer_step _ _ (by simp),
    feedBytes_buffer_step _ _ (by simp)]
  simp only [List.nil_append, List.singleton_append, List.cons_append]
  rw [feedBytes]
  have hpush4 : FrameReader.push ⟨[b0, b1, b2], none⟩ [b3] =
      drainFrames [b0, b1, b2, b3] := by
    rw [push_buffer_none]
    simp
  by_cases hpos : 0 < p.length
  · have hdrain4 : drainFrames [b0, b1, b2, b3] = ⟨⟨[], some p.length⟩, [], none⟩ := by
      rw [drainFrames, dif_neg (by simp)]
      simp only [show List.drop 4 [b0, b1, b2, b3] = [] from rfl, hread,
        List.length_nil]
      rw [if_neg (by omega), if_pos hpos]
    have hfill := @feedBytes_fill p.length p []
      (by intro h; rw [h] at hpos; simp at hpos) (by simp)
    rw [hpush4, hdrain4]
    simp [hfill]
  · have hzero : p.length = 0 := by omega
    have hpnil : p = [] := List.length_eq_zero.mp hzero
    have hdrain4 : drainFrames [b0, b1, b2, b3] = ⟨⟨[], none⟩, [[]], none⟩ := by
      rw [drainFrames, dif_neg (by simp)]
      simp only [show List.drop 4 [b0, b1, b2, b3] = [] from rfl, hread, hzero,
        List.length_nil, List.drop_zero, List.take_zero]
      rw [if_neg (by decide), if_neg (by decide), drainFrames_short (by decide)]
    rw [hpush4, hdrain4]
    simp [hpnil, feedBytes]

theorem push_init (chunk : List Nat) :
    FrameReader.push FrameReader.init chunk = drainFrames chunk := rfl

/-! ## C2, C3: frame codec -/

/-- C2: the `FrameReader` emits each frame exactly once and intact regardless of
chunking — one encoded frame fed byte-by-byte yields exactly one callback with the
original payload; two concatenated encoded frames in a single chunk yield exactly the
two payloads in order; surplus bytes after them stay buffered for the next frame. -/
theorem frameReader_roundtrip (p p1 p2 extra : List Nat)
    (hp : p.length ≤ MAX_FRAME) (hp1 : p1.length ≤ MAX_FRAME)
    (hp2 : p2.length ≤ MAX_FRAME) (hextra : extra.length < 4) :
    feedBytes FrameReader.init (encodeFrame p) = ⟨FrameReader.init, [p], none⟩ ∧
    FrameReader.push FrameReader.init (encodeFrame p1 ++ encodeFrame p2) =
      ⟨FrameReader.init, [p1, p2], none⟩ ∧
    FrameReader.push FrameReader.init (encodeFrame p1 ++ (encodeFrame p2 ++ extra)) =
      ⟨⟨extra, none⟩, [p1, p2], none⟩ := by
  have h2 : drainFrames (encodeFrame p2) = ⟨⟨[], none⟩, [p2], none⟩ := by
    have h := drainFrames_emit hp2 []
    rw [List.append_nil,
      drainFrames_short (show ([] : List Nat).length < 4 by decide)] at h
    exact h
  refine ⟨feedBytes_single p hp, ?_, ?_⟩
  · rw [push_init, drainFrames_emit hp1 (encodeFrame p2), h2]
    rfl
  · rw [push_init, drainFrames_emit hp1 (encodeFrame p2 ++ extra),
      drainFrames_emit hp2 extra, drainFrames_short hextra]

/-- C2, witness: the round-trip theorem applied to the concrete payloads `[7]`
(byte-by-byte) and `[1]`, `[2, 3]` followed by the surplus byte `9`. -/
theorem frameReader_roundtrip_witness :
    feedBytes FrameReader.init (encodeFrame [7]) = ⟨FrameReader.init, [[7]], none⟩ ∧
    FrameReader.push FrameReader.init (encodeFrame [1] ++ (encodeFrame [2, 3] ++ [9])) =
      ⟨⟨[9], none⟩, [[1], [2, 3]], none⟩ :=
  ⟨(frameReader_roundtrip [7] [1] [2, 3] [9]
      (by decide) (by decide) (by decide) (by decide)).1,
   (frameReader_roundtrip [7] [1] [2, 3] [9]
      (by decide) (by decide) (by decide) (by decide)).2.2⟩

/-- C3: a declared length exceeding `MAX_FRAME` makes `push` throw `Frame too large`
as soon as the 4-byte prefix has been read — before any payload byte has been
buffered or awaited — and the callback is never invoked for that frame; a declared
length of exactly `MAX_FRAME` is accepted (the reader waits for the payload), and a
complete frame of exactly `MAX_FRAME` bytes is delivered. -/
theorem frameReader_max_frame (n : Nat) (p : List Nat)
    (hbig : n > MAX_FRAME) (hn : n < 2 ^ 32) (hp : p.length = MAX_FRAME) :
    FrameReader.push FrameReader.init (be32 n) =
      ⟨⟨[], some n⟩, [], some ("Frame too large: " ++ toString n)⟩ ∧
    FrameReader.push FrameReader.init (be32 MAX_FRAME) =
      ⟨⟨[], some MAX_FRAME⟩, [], none⟩ ∧
    FrameReader.push FrameReader.init (encodeFrame p) =
      ⟨FrameReader.init, [p], none⟩ := by
  have hread : readUInt32BE (be32 n) = n := by
    have h := readUInt32BE_be32 hn ([] : List Nat)
    rwa [List.append_nil] at h
  refine ⟨?_, ?_, ?_⟩
  · rw [push_init, drainFrames, dif_neg (by simp [be32])]
    simp only [show (be32 n).drop 4 = [] from rfl, hread]
    rw [if_pos hbig]
  · rw [push_init, drainFrames, dif_neg (by simp [be32])]
    have hrm : readUInt32BE (be32 MAX_FRAME) = MAX_FRAME := by decide
    simp only [show (be32 MAX_FRAME).drop 4 = [] from rfl, hrm, List.length_nil]
    rw [if_neg (by omega), if_pos (by simp [MAX_FRAME])]
  · rw [push_init]
    have h := drainFrames_emit (p := p) (by omega) []
    rw [List.append_nil,
      drainFrames_short (show ([] : List Nat).length < 4 by decide)] at h
    exact h

/-- C3, witness: the ceiling theorem applied at the declared length
`MAX_FRAME + 1` (rejected with only the header consumed) and a payload of exactly
`MAX_FRAME` zero bytes (accepted). -/
theorem frameReader_max_frame_witness :
    FrameReader.push FrameReader.init (be32 (MAX_FRAME + 1)) =
      ⟨⟨[], some (MAX_FRAME + 1)⟩, [],
        some ("Frame too large: " ++ toString (MAX_FRAME + 1))⟩ ∧
    FrameReader.push FrameReader.init (encodeFrame (List.replicate MAX_FRAME 0)) =
      ⟨FrameReader.init, [List.replicate MAX_FRAME 0], none⟩ :=
  ⟨(frameReader_max_frame (MAX_FRAME + 1) (List.replicate MAX_FRAME 0)
      (by decide) (by decide) (by simp)).1,
   (frameReader_max_frame (MAX_FRAME + 1) (List.replicate MAX_FRAME 0)
      (by decide) (by decide) (by simp)).2.2⟩

/-! ## C1: `ReadonlyVirtualProvider` rejects all mutation -/

/-- C1: every mutating operation of the readonly adapter (`mkdir`, `rmdir`, `unlink`,
`rename`, `symlink`, in sync and async forms) fails with `EROFS` without consulting
any backend; `open`/`openSync` with a flag string containing `w`, `a` or `+` fails
with `EROFS` and the result is independent of the backend (the backend is never
invoked); with a flag string containing none of those characters the call reaches the
backend's `openReadonlySync`. -/
theorem readonlyProvider_rejects_writes (b bAlt : ReadonlyBackend)
    (entryPath oldPath newPath target flags : String) (mode : Option Nat)
    (type? : Option String) :
    (isWriteFlag flags = true ↔
      ('w' ∈ flags.data ∨ 'a' ∈ flags.data ∨ '+' ∈ flags.data)) ∧
    (isWriteFlag flags = true →
      ReadonlyVirtualProvider.openSync b entryPath flags mode =
          .error (createErrnoError EROFS "open" entryPath) ∧
        ReadonlyVirtualProvider.openSync b entryPath flags mode =
          ReadonlyVirtualProvider.openSync bAlt entryPath flags mode) ∧
    (isWriteFlag flags = false →
      ReadonlyVirtualProvider.openSync b entryPath flags mode =
        .ok (b.openReadonlySync entryPath flags mode)) ∧
    ReadonlyVirtualProvider.openAsync b entryPath flags mode =
      ReadonlyVirtualProvider.openSync b entryPath flags mode ∧
    ReadonlyVirtualProvider.mkdirSync entryPath =
      .error (createErrnoError EROFS "mkdir" entryPath) ∧
    ReadonlyVirtualProvider.mkdir entryPath =
      ReadonlyVirtualProvider.mkdirSync entryPath ∧
    ReadonlyVirtualProvider.rmdirSync entryPath =
      .error (createErrnoError EROFS "rmdir" entryPath) ∧
    ReadonlyVirtualProvider.rmdir entryPath =
      ReadonlyVirtualProvider.rmdirSync entryPath ∧
    ReadonlyVirtualProvider.unlinkSync entryPath =
      .error (createErrnoError EROFS "unlink" entryPath) ∧
    ReadonlyVirtualProvider.unlink entryPath =
      ReadonlyVirtualProvider.unlinkSync entryPath ∧
    ReadonlyVirtualProvider.renameSync oldPath newPath =
      .error (createErrnoError EROFS "rename" oldPath) ∧
    ReadonlyVirtualProvider.rename oldPath newPath =
      ReadonlyVirtualProvider.renameSync oldPath newPath ∧
    ReadonlyVirtualProvider.symlinkSync target entryPath type? =
      .error (createErrnoError EROFS "symlink" entryPath) ∧
    ReadonlyVirtualProvider.symlink target entryPath type? =
      ReadonlyVirtualProvider.symlinkSync target entryPath type? := by
  refine ⟨?_, ?_, ?_, rfl, rfl, rfl, rfl, rfl, rfl, rfl, rfl, rfl, rfl, rfl⟩
  · constructor
    · intro h
      simp only [isWriteFlag, List.any_eq_true, Bool.or_eq_true,
        decide_eq_true_eq] at h
      obtain ⟨c, hc, (h1 | h2) | h3⟩ := h
      · exact Or.inl (h1 ▸ hc)
      · exact Or.inr (Or.inl (h2 ▸ hc))
      · exact Or.inr (Or.inr (h3 ▸ hc))
    · intro h
      simp only [isWriteFlag, List.any_eq_true, Bool.or_eq_true, decide_eq_true_eq]
      rcases h with h | h | h
      · exact ⟨'w', h, Or.inl (Or.inl rfl)⟩
      · exact ⟨'a', h, Or.inl (Or.inr rfl)⟩
      · exact ⟨'+', h, Or.inr rfl⟩
  · intro h
    constructor
    · rw [ReadonlyVirtualProvider.openSync, if_pos h]
    · rw [ReadonlyVirtualProvider.openSync, ReadonlyVirtualProvider.openSync,
        if_pos h, if_pos h]
  · intro h
    rw [ReadonlyVirtualProvider.openSync, if_neg (by rw [h]; exact Bool.false_ne_true)]

/-- C1, witness: the adapter theorem applied at a concrete backend and the concrete
flag strings `"w"` (rejected with `EROFS`) and `"r"` (passed through to
`openReadonlySync`). -/
theorem readonlyProvider_rejects_writes_witness :
    ReadonlyVirtualProvider.openSync ⟨fun _ _ _ => ⟨0⟩⟩ "/f" "w" none =
      .error (createErrnoError EROFS "open" "/f") ∧
    ReadonlyVirtualProvider.openSync ⟨fun _ _ _ => ⟨0⟩⟩ "/f" "r" none =
      .ok ((⟨fun _ _ _ => ⟨0⟩⟩ : ReadonlyBackend).openReadonlySync "/f" "r" none) :=
  ⟨((readonlyProvider_rejects_writes ⟨fun _ _ _ => ⟨0⟩⟩ ⟨fun _ _ _ => ⟨0⟩⟩
      "/f" "" "" "" "w" none none).2.1 (by decide)).1,
   (readonlyProvider_rejects_writes ⟨fun _ _ _ => ⟨0⟩⟩ ⟨fun _ _ _ => ⟨0⟩⟩
      "/f" "" "" "" "r" none none).2.2.1 (by decide)⟩

/-! ## C10: synthesized directory entries and stats -/

/-- C10: every `VirtualDirent` classifies its entry as a directory and nothing else;
`createVirtualDirStats` always reports mode `0o040755`, size 4096, nlink 1 and
uid/gid 0; `formatVirtualEntries` with `withTypes = false` returns the input names
unchanged. -/
theorem virtualDirent_classification (name : String) (now : Nat)
    (entries : List String) :
    (VirtualDirent.mk name).isDirectory = true ∧
    (VirtualDirent.mk name).isFile = false ∧
    (VirtualDirent.mk name).isSymbolicLink = false ∧
    (VirtualDirent.mk name).isBlockDevice = false ∧
    (VirtualDirent.mk name).isCharacterDevice = false ∧
    (VirtualDirent.mk name).isFIFO = false ∧
    (VirtualDirent.mk name).isSocket = false ∧
    (createVirtualDirStats now).mode = 0o040755 ∧
    (createVirtualDirStats now).size = 4096 ∧
    (createVirtualDirStats now).nlink = 1 ∧
    (createVirtualDirStats now).uid = 0 ∧
    (createVirtualDirStats now).gid = 0 ∧
    formatVirtualEntries entries false = .inl entries :=
  ⟨rfl, rfl, rfl, rfl, rfl, rfl, rfl, rfl, rfl, rfl, rfl, rfl, rfl⟩

/-! ## Lemmas: `normalize` eliminates Maps and bare Uint8Arrays -/

mutual
theorem mapFree_normalize (v : JsValue) (hv : objFree v = true) :
    mapFree (normalize v) = true := by
  cases v with
  | jsMap entries =>
    have h : objFreeEntries entries = true := by simpa [objFree] using hv
    simp only [normalize, mapFree]
    exact mapFreeFields_normalizeEntries entries h
  | obj fields => simp [objFree] at hv
  | arr items =>
    have h : objFreeItems items = true := by simpa [objFree] using hv
    simp only [normalize, mapFree]
    exact mapFreeItems_normalizeItems items h
  | bytes d isBuf => cases isBuf <;> simp [normalize, mapFree]
  | num n => simp [normalize, mapFree]
  | str s => simp [normalize, mapFree]
  | bool b => cases b <;> simp [normalize, mapFree]
  | jsNull => simp [normalize, mapFree]

theorem mapFreeFields_normalizeEntries (entries : List (JsValue × JsValue))
    (h : objFreeEntries entries = true) :
    mapFreeFields (normalizeEntries entries) = true := by
  cases entries with
  | nil => simp [normalizeEntries, mapFreeFields]
  | cons kv rest =>
    obtain ⟨k, v⟩ := kv
    simp only [objFreeEntries, Bool.and_eq_true] at h
    simp only [normalizeEntries, mapFreeFields, Bool.and_eq_true]
    exact ⟨mapFree_normalize v h.1.2, mapFreeFields_normalizeEntries rest h.2⟩

theorem mapFreeItems_normalizeItems (items : List JsValue)
    (h : objFreeItems items = true) :
    mapFreeItems (normalizeItems items) = true := by
  cases items with
  | nil => simp [normalizeItems, mapFreeItems]
  | cons v rest =>
    simp only [objFreeItems, Bool.and_eq_true] at h
    simp only [normalizeItems, mapFreeItems, Bool.and_eq_true]
    exact ⟨mapFree_normalize v h.1, mapFreeItems_normalizeItems rest h.2⟩
end

mutual
theorem buffersNormalized_normalize (v : JsValue) (hv : objFree v = true) :
    buffersNormalized (normalize v) = true := by
  cases v with
  | jsMap entries =>
    have h : objFreeEntries entries = true := by simpa [objFree] using hv
    simp only [normalize, buffersNormalized]
    exact bnFields_normalizeEntries entries h
  | obj fields => simp [objFree] at hv
  | arr items =>
    have h : objFreeItems items = true := by simpa [objFree] using hv
    simp only [normalize, buffersNormalized]
    exact bnItems_normalizeItems items h
  | bytes d isBuf => cases isBuf <;> simp [normalize, buffersNormalized]
  | num n => simp [normalize, buffersNormalized]
  | str s => simp [normalize, buffersNormalized]
  | bool b => cases b <;> simp [normalize, buffersNormalized]
  | jsNull => simp [normalize, buffersNormalized]

theorem bnFields_normalizeEntries (entries : List (JsValue × JsValue))
    (h : objFreeEntries entries = true) :
    bnFields (normalizeEntries entries) = true := by
  cases entries with
  | nil => simp [normalizeEntries, bnFields]
  | cons kv rest =>
    obtain ⟨k, v⟩ := kv
    simp only [objFreeEntries, Bool.and_eq_true] at h
    simp only [normalizeEntries, bnFields, Bool.and_eq_true]
    exact ⟨buffersNormalized_normalize v h.1.2, bnFields_normalizeEntries rest h.2⟩

theorem bnItems_normalizeItems (items : List JsValue)
    (h : objFreeItems items = true) :
    bnItems (normalizeItems items) = true := by
  cases items with
  | nil => simp [normalizeItems, bnItems]
  | cons v rest =>
    simp only [objFreeItems, Bool.and_eq_true] at h
    simp only [normalizeItems, bnItems, Bool.and_eq_true]
    exact ⟨buffersNormalized_normalize v h.1, bnItems_normalizeItems rest h.2⟩
end

/-! ## C5: `normalize` -/

/-- C5, counterexample: the claim fails on decoder-producible values.  The `cbor`
package decodes an all-string-keyed CBOR map to a **plain object** by default, and
`normalize` returns plain objects unchanged without recursing (`return value`), so a
`Map` (here one with a non-string key, which the decoder does keep as a `Map`) or a
bare `Uint8Array` nested inside such an object survives normalization: the result
still contains a `Map`, and its byte string is still not a `Buffer`.  (The
`Buffer.isBuffer(message.p.data)` fallback in `main`'s output handling exists
precisely because of this.) -/
theorem normalize_not_into_objects :
    normalize (.obj [("k", .jsMap [(.num 1, .num 2)])]) =
      .obj [("k", .jsMap [(.num 1, .num 2)])] ∧
    mapFree (normalize (.obj [("k", .jsMap [(.num 1, .num 2)])])) = false ∧
    normalize (.obj [("k", .bytes [1] false)]) = .obj [("k", .bytes [1] false)] ∧
    buffersNormalized (normalize (.obj [("k", .bytes [1] false)])) = false := by
  refine ⟨by simp [normalize], ?_, by simp [normalize], ?_⟩
  · have h : normalize (.obj [("k", .jsMap [(.num 1, .num 2)])]) =
        .obj [("k", .jsMap [(.num 1, .num 2)])] := by simp [normalize]
    rw [h]
    simp [mapFree, mapFreeFields]
  · have h : normalize (.obj [("k", .bytes [1] false)]) =
        .obj [("k", .bytes [1] false)] := by simp [normalize]
    rw [h]
    simp [buffersNormalized, bnFields]

/-- C5 (amended): `normalize` recurses only through `Map`s and arrays, so for every
value free of plain objects its result is `Map`-free — each `Map` at any such depth
becomes a plain object whose keys are strings (`String(key)`) — with every byte
string a `Buffer`; plain objects themselves (which the `cbor` decoder produces for
all-string-keyed maps) are returned unchanged together with their contents, so
`Map`s or bare `Uint8Array`s nested inside them survive; numbers, strings, booleans
and existing `Buffer`s are returned unchanged. -/
theorem normalize_spec (v : JsValue) (hv : objFree v = true) :
    mapFree (normalize v) = true ∧
    buffersNormalized (normalize v) = true ∧
    (∀ entries, normalize (.jsMap entries) = .obj (normalizeEntries entries)) ∧
    (∀ fields, normalize (.obj fields) = .obj fields) ∧
    (∀ n : Int, normalize (.num n) = .num n) ∧
    (∀ s : String, normalize (.str s) = .str s) ∧
    (∀ b : Bool, normalize (.bool b) = .bool b) ∧
    (∀ d : List Nat, normalize (.bytes d true) = .bytes d true) ∧
    (∀ d : List Nat, normalize (.bytes d false) = .bytes d true) := by
  refine ⟨mapFree_normalize v hv, buffersNormalized_normalize v hv,
    fun entries => by simp [normalize], fun fields => by simp [normalize],
    fun n => by simp [normalize],
    fun s => by simp [normalize], fun b => ?_, fun d => by simp [normalize],
    fun d => by simp [normalize]⟩
  cases b <;> simp [normalize]

/-- C5, witness: the amended theorem applied to a concrete object-free value — a Map
holding a bare `Uint8Array` — yields a Map-free value whose byte strings are all
`Buffer`s. -/
theorem normalize_spec_witness :
    objFree (.jsMap [(.str "k", .bytes [1] false)]) = true ∧
    mapFree (normalize (.jsMap [(.str "k", .bytes [1] false)])) = true ∧
    buffersNormalized (normalize (.jsMap [(.str "k", .bytes [1] false)])) = true :=
  ⟨by simp [objFree, objFreeEntries],
   (normalize_spec _ (by simp [objFree, objFreeEntries])).1,
   (normalize_spec _ (by simp [objFree, objFreeEntries])).2.1⟩

/-! ## C6, C7: CLI exit behaviour -/

theorem push_init_oversized {n : Nat} (hbig : n > MAX_FRAME) (hn : n < 2 ^ 32) :
    FrameReader.push FrameReader.init (be32 n) =
      ⟨⟨[], some n⟩, [], some ("Frame too large: " ++ toString n)⟩ := by
  have hread : readUInt32BE (be32 n) = n := by
    have h := readUInt32BE_be32 hn ([] : List Nat)
    rwa [List.append_nil] at h
  rw [push_init, drainFrames, dif_neg (by simp [be32])]
  simp only [show (be32 n).drop 4 = [] from rfl, hread]
  rw [if_pos hbig]

/-- C6, counterexample: the claim says an `exec_response` carrying a signal makes the
client exit with a nonzero status, but the code exits with `exit_code ?? 1`
regardless of the signal — on `{exit_code: 0, signal: 9}` it exits with status 0
(the signal is only logged to stderr). -/
theorem cli_signal_zero_exit :
    (handleMessage (.execResponse (some 0) (some 9))).exit = some 0 ∧
    (handleMessage (.execResponse (some 0) (some 9))).stderrLines =
      ["process exited due to signal 9"] := by decide

/-- C6 (amended): on `exec_response` without a signal the client exits with exactly
the peer-reported exit code (1 when absent); on `exec_response` with a signal it
writes the signal detail to stderr and exits with `exit_code ?? 1` — which is the
peer's exit code even when that is zero, not necessarily nonzero; on an `error`
message it writes the detail to stderr and exits 1 (nonzero); on a protocol/framing
failure (the frame reader throwing inside the `data` handler) the uncaught
exception terminates the process with status 1 (nonzero), the error detail on
stderr; diagnostic detail never goes to stdout. -/
theorem cli_terminal_spec (code sig : Int) (ec : Option Int)
    (errCode errMsg : String) (st : FrameReader) (chunk : List Nat) (e : String) :
    (handleMessage (.execResponse (some code) none)).exit = some code ∧
    (handleMessage (.execResponse (some code) none)).stderrLines = [] ∧
    (handleMessage (.execResponse none none)).exit = some 1 ∧
    (handleMessage (.execResponse ec (some sig))).exit = some (ec.getD 1) ∧
    (handleMessage (.execResponse ec (some sig))).stderrLines =
      ["process exited due to signal " ++ toString sig] ∧
    (handleMessage (.execResponse ec (some sig))).stdoutData = [] ∧
    (handleMessage (.errorMsg errCode errMsg)).exit = some 1 ∧
    (handleMessage (.errorMsg errCode errMsg)).stderrLines =
      ["error " ++ errCode ++ ": " ++ errMsg] ∧
    (handleMessage (.errorMsg errCode errMsg)).stdoutData = [] ∧
    ((FrameReader.push st chunk).thrown = some e →
      (onSocketData st chunk).2.2 = some ⟨[], [], [e], some 1⟩) ∧
    (1 : Int) ≠ 0 := by
  refine ⟨rfl, rfl, rfl, ?_, rfl, ?_, rfl, rfl, rfl, ?_, by decide⟩
  · cases ec <;> rfl
  · cases ec <;> rfl
  · intro h
    simp [onSocketData, h]

/-- C6, witness: the amended theorem applied at the peer exit code `7` (passthrough)
and at the concrete framing failure of a declared length of `MAX_FRAME + 1` bytes —
the process exits with status 1 and the `Frame too large` detail on stderr. -/
theorem cli_terminal_spec_witness :
    (handleMessage (.execResponse (some 7) none)).exit = some 7 ∧
    (onSocketData FrameReader.init (be32 (MAX_FRAME + 1))).2.2 =
      some ⟨[], [], ["Frame too large: " ++ toString (MAX_FRAME + 1)], some 1⟩ :=
  ⟨(cli_terminal_spec 7 0 none "" "" FrameReader.init [] "").1,
   (cli_terminal_spec 7 0 none "" "" FrameReader.init (be32 (MAX_FRAME + 1))
      ("Frame too large: " ++ toString (MAX_FRAME + 1))).2.2.2.2.2.2.2.2.2.1
     (by rw [push_init_oversized (by decide) (by decide)])⟩

/-- C7: when the transport closes before a terminal message — socket `end` or socket
`error` — the client synthesizes a failure: it exits with status 1 (nonzero) rather
than waiting, logging the socket error to stderr when there is one.  Both handlers
are unconditional, so they fire whatever the state of the in-flight request. -/
theorem cli_transport_close (msg : String) :
    onSocketEnd.exit = some 1 ∧
    (onSocketError msg).exit = some 1 ∧
    (onSocketError msg).stderrLines = ["socket error: " ++ msg] ∧
    (onSocketError msg).stdoutData = [] ∧
    (1 : Int) ≠ 0 :=
  ⟨rfl, rfl, rfl, rfl, by decide⟩

/-! ## C8: pool single-flight -/

theorem acquireN_stable {s : PoolState} {key : String} {pid : Nat}
    (hpool : s.pool.lookup key = none) (hpend : s.pending.lookup key = some pid) :
    ∀ n, acquireN s key n = (s, List.replicate n (.awaitPending pid)) := by
  intro n
  induction n with
  | zero => simp [acquireN]
  | succ n ih =>
    have hget : getEntry s key = (s, .awaitPending pid) := by
      simp [getEntry, hpool, hpend]
    simp [acquireN, hget, ih, List.replicate_succ]

/-- C8: for a fresh key, `n + 1` concurrent `getEntry` callers produce exactly one
factory invocation (`VM.create`); the first caller starts creation promise `0` and
every other caller awaits that same promise, so all receive the same entry when it
resolves; after the creation completes with entry `vmId`, a further `getEntry`
returns the cached `vmId` with the factory still invoked exactly once. -/
theorem pool_single_flight (key : String) (n vmId : Nat) :
    (acquireN initialPoolState key (n + 1)).2 =
      .startedNew 0 :: List.replicate n (.awaitPending 0) ∧
    (acquireN initialPoolState key (n + 1)).1.factoryCalls = 1 ∧
    (getEntry (completeCreation (acquireN initialPoolState key (n + 1)).1 key vmId)
        key).2 = .cached vmId ∧
    (getEntry (completeCreation (acquireN initialPoolState key (n + 1)).1 key vmId)
        key).1.factoryCalls = 1 := by
  have hfirst : getEntry initialPoolState key =
      (⟨[], [(key, 0)], 1, 1⟩, .startedNew 0) := by
    simp [getEntry, initialPoolState]
  have hstable := @acquireN_stable ⟨[], [(key, 0)], 1, 1⟩ key 0
    (by simp) (by simp [List.lookup]) n
  have hacq : acquireN initialPoolState key (n + 1) =
      (⟨[], [(key, 0)], 1, 1⟩, .startedNew 0 :: List.replicate n (.awaitPending 0)) := by
    simp [acquireN, hfirst, hstable]
  have hcached : getEntry (completeCreation ⟨[], [(key, 0)], 1, 1⟩ key vmId) key =
      (completeCreation ⟨[], [(key, 0)], 1, 1⟩ key vmId, .cached vmId) := by
    simp [getEntry, completeCreation, List.lookup]
  refine ⟨by rw [hacq], by rw [hacq], ?_, ?_⟩
  · rw [hacq]
    simp only [hcached]
  · rw [hacq]
    simp only [hcached]
    simp [completeCreation]

/-! ## Lemmas: the `withVm` invariant -/

theorem getElem?_set_eq_of_lt {α : Type} (l : List α) (i : Nat) (a : α)
    (h : i < l.length) : (l.set i a)[i]? = some a := by
  simp [List.getElem?_set_self', h]

theorem withVmInv_init (n : Nat) : WithVmInv (initWithVm n) := by
  refine ⟨?_, ?_, Or.inl ⟨rfl, rfl, ?_⟩⟩
  · intro j hj
    exact absurd hj (List.not_mem_nil j)
  · exact List.nodup_nil
  · intro i h
    simp only [initWithVm, List.getElem?_replicate] at h
    split at h
    · exact Phase.noConfusion (Option.some.inj h)
    · exact Option.noConfusion h

theorem withVmInv_step {s t : WithVmSystem} (hinv : WithVmInv s)
    (hst : WithVmStep s t) : WithVmInv t := by
  obtain ⟨hq, hnd, hcase⟩ := hinv
  cases hst with
  | acquireFast i h hc =>
    rcases hcase with ⟨hc1, hq1, hnc⟩ | ⟨hc0, -⟩
    · have hi : i < s.tasks.length := (List.getElem?_eq_some.mp h).1
      refine ⟨?_, hnd, Or.inr ⟨show s.sem.count - 1 = 0 by omega, i, ?_, ?_⟩⟩
      · intro j hj
        rw [hq1] at hj
        exact absurd hj (List.not_mem_nil j)
      · exact getElem?_set_eq_of_lt _ _ _ hi
      · intro j hj
        by_cases hij : i = j
        · exact hij.symm
        · rw [List.getElem?_set_ne hij] at hj
          exact absurd hj (hnc j)
    · omega
  | acquireWait i h hc =>
    rcases hcase with ⟨hc1, -, -⟩ | ⟨hc0, c, hcrit, huniq⟩
    · omega
    · have hi : i < s.tasks.length := (List.getElem?_eq_some.mp h).1
      have hstartwait : ∀ j ∈ s.sem.queue, j ≠ i := by
        intro j hj he
        have hw := hq j hj
        rw [he, h] at hw
        exact Phase.noConfusion (Option.some.inj hw)
      refine ⟨?_, ?_, Or.inr ⟨rfl, c, ?_, ?_⟩⟩
      · intro j hj
        rcases List.mem_append.mp hj with hj | hj
        · have hw := hq j hj
          rw [List.getElem?_set_ne (fun he => hstartwait j hj he.symm)]
          exact hw
        · have hji : j = i := List.mem_singleton.mp hj
          subst hji
          exact getElem?_set_eq_of_lt _ _ _ hi
      · rw [List.nodup_append]
        exact ⟨hnd, List.nodup_singleton i,
          fun a ha hb => hstartwait a ha (List.mem_singleton.mp hb)⟩
      · have hic : i ≠ c := by
          intro he
          rw [← he, h] at hcrit
          exact Phase.noConfusion (Option.some.inj hcrit)
        rw [List.getElem?_set_ne hic]
        exact hcrit
      · intro j hj
        by_cases hij : i = j
        · subst hij
          rw [getElem?_set_eq_of_lt _ _ _ hi] at hj
          exact absurd (Option.some.inj hj) (fun he => Phase.noConfusion he)
        · rw [List.getElem?_set_ne hij] at hj
          exact huniq j hj
  | finish i threw h =>
    rcases hcase with ⟨-, -, hnc⟩ | ⟨hc0, c, hcrit, huniq⟩
    · exact absurd h (hnc i)
    · have hic : i = c := huniq i h
      subst hic
      have hi : i < s.tasks.length := (List.getElem?_eq_some.mp h).1
      cases hqv : s.sem.queue with
      | nil =>
        have hft : finishTask s i threw =
            ⟨⟨s.sem.count + 1, []⟩, s.tasks.set i Phase.finished⟩ := by
          simp [finishTask, releaseStep, hqv]
        rw [hft]
        refine ⟨?_, List.nodup_nil, Or.inl ⟨show s.sem.count + 1 = 1 by omega, rfl, ?_⟩⟩
        · intro j hj
          exact absurd hj (List.not_mem_nil j)
        · intro j hj
          by_cases hij : i = j
          · subst hij
            rw [getElem?_set_eq_of_lt _ _ _ hi] at hj
            exact Phase.noConfusion (Option.some.inj hj)
          · rw [List.getElem?_set_ne hij] at hj
            exact hij (huniq j hj).symm
      | cons w rest =>
        have hft : finishTask s i threw =
            ⟨⟨s.sem.count, rest⟩, (s.tasks.set i Phase.finished).set w Phase.critical⟩ := by
          simp [finishTask, releaseStep, hqv]
        rw [hft]
        have hwmem : w ∈ s.sem.queue := by
          rw [hqv]
          exact List.mem_cons_self _ _
        have hwwait := hq w hwmem
        have hw : w < s.tasks.length := (List.getElem?_eq_some.mp hwwait).1
        have hndc := List.nodup_cons.mp (hqv ▸ hnd)
        refine ⟨?_, hndc.2, Or.inr ⟨hc0, w, ?_, ?_⟩⟩
        · intro j hj
          have hjq : j ∈ s.sem.queue := by
            rw [hqv]
            exact List.mem_cons_of_mem _ hj
          have hjw := hq j hjq
          have hji : j ≠ i := by
            intro he
            rw [he, h] at hjw
            exact Phase.noConfusion (Option.some.inj hjw)
          have hjwne : w ≠ j := fun he => hndc.1 (he ▸ hj)
          rw [List.getElem?_set_ne hjwne, List.getElem?_set_ne (fun he => hji he.symm)]
          exact hjw
        · have hwlen : w < (s.tasks.set i Phase.finished).length := by
            simpa using hw
          exact getElem?_set_eq_of_lt _ _ _ hwlen
        · intro j hj
          by_cases hwj : w = j
          · exact hwj.symm
          · rw [List.getElem?_set_ne hwj] at hj
            by_cases hij : i = j
            · subst hij
              rw [getElem?_set_eq_of_lt _ _ _ hi] at hj
              exact absurd (Option.some.inj hj) (fun he => Phase.noConfusion he)
            · rw [List.getElem?_set_ne hij] at hj
              exact absurd (huniq j hj).symm hij

theorem withVmInv_reachable {n : Nat} {s : WithVmSystem}
    (h : ReachableWithVm n s) : WithVmInv s := by
  induction h with
  | init => exact withVmInv_init n
  | step hr hst ih => exact withVmInv_step ih hst

/-! ## C9: `withVm` mutual exclusion and release on every exit path -/

/-- C9: in every reachable interleaving of `withVm` callers on one key, at most one
caller is inside the callback at a time (two critical sections never overlap);
finishing the callback has the same effect whether `fn` returned or threw — the
`finally` releases the per-key gate on every exit path; and whenever the wait queue
is nonempty some task holds the critical section, whose release wakes the head
waiter, so later acquirers are never starved behind an abandoned gate. -/
theorem withVm_mutex_release (n : Nat) (s : WithVmSystem)
    (hs : ReachableWithVm n s) :
    (∀ i j : Nat, s.tasks[i]? = some Phase.critical →
      s.tasks[j]? = some Phase.critical → i = j) ∧
    (∀ (i : Nat) (threw : Bool), finishTask s i threw = finishTask s i false) ∧
    (s.sem.queue ≠ [] → ∃ i : Nat, s.tasks[i]? = some Phase.critical) := by
  obtain ⟨hq, hnd, hcase⟩ := withVmInv_reachable hs
  refine ⟨?_, fun i threw => rfl, ?_⟩
  · intro i j hi hj
    rcases hcase with ⟨-, -, hnc⟩ | ⟨-, c, -, huniq⟩
    · exact absurd hi (hnc i)
    · rw [huniq i hi, huniq j hj]
  · intro hne
    rcases hcase with ⟨-, hq1, -⟩ | ⟨-, c, hcrit, -⟩
    · exact absurd hq1 hne
    · exact ⟨c, hcrit⟩

/-- C9, witness: the mutual-exclusion theorem applied at the concrete reachable
state of two fresh callers. -/
theorem withVm_mutex_release_witness :
    (∀ i j : Nat, (initWithVm 2).tasks[i]? = some Phase.critical →
      (initWithVm 2).tasks[j]? = some Phase.critical → i = j) ∧
    ((initWithVm 2).sem.queue ≠ [] →
      ∃ i : Nat, (initWithVm 2).tasks[i]? = some Phase.critical) :=
  ⟨(withVm_mutex_release 2 (initWithVm 2) ReachableWithVm.init).1,
   (withVm_mutex_release 2 (initWithVm 2) ReachableWithVm.init).2.2⟩

end Gondolin
